import Mathlib

/-
  Verification development for the mesh-coupling data-mapping core:
  - m2n/GatherScatterCommunication.cpp (send / receive, master branch)
  - mapping/NearestNeighborMapping.cpp (map, consistent / conservative)
  - mapping/PGreedySolver.hpp (greedy center selection, solves)

  Part 1 models the data-redistribution code over the exact field of
  rationals (the code only adds and copies values there).  Part 2 models
  the P-Greedy solver over an arbitrary linearly ordered field together
  with an abstract square-root function, which captures the exact-real
  idealization of the double arithmetic of the source.
-/

namespace Precice

/-! ### Point updates on a vector modelled as a function from flat index to value -/

/-- Single `+=` update of the value at flat index `k`, as performed by
`globalItemsToSend[idx] += v` in the source. -/
def addAt (g : ℕ → ℚ) (k : ℕ) (x : ℚ) : ℕ → ℚ :=
  fun j => if j = k then g j + x else g j

/-- Single `=` (overwriting) update of the value at flat index `k`. -/
def setAt (g : ℕ → ℚ) (k : ℕ) (x : ℚ) : ℕ → ℚ :=
  fun j => if j = k then x else g j

/-! ### GatherScatterCommunication::send (master branch)

The master allocates a zero vector of length `globalVertexCount * valueDimension`
and accumulates, rank by rank in ascending order starting with its own rank 0,
`globalItemsToSend[distribution[r][i]*valueDim + j] += contribution[r][i*valueDim + j]`. -/

/-- One rank the master processes inside `send`: the two nested loops over the
positions `i` of the rank slice of the vertex distribution and the value
components `d`. -/
def accumulateRank (D : ℕ) (slice : List ℕ) (contrib : ℕ → ℚ) (g : ℕ → ℚ) : ℕ → ℚ :=
  (List.range slice.length).foldl (fun g i =>
    (List.range D).foldl (fun g d =>
      addAt g (slice.getD i 0 * D + d) (contrib (i * D + d))) g) g

/-- The assembled global vector of `GatherScatterCommunication::send`: rank 0
(the master data) first, then the worker ranks in ascending order, starting
from the zero-initialized buffer. -/
def globalItemsToSend (N D : ℕ) (dist : ℕ → List ℕ) (contrib : ℕ → ℕ → ℚ) : ℕ → ℚ :=
  (List.range N).foldl (fun g r => accumulateRank D (dist r) (contrib r) g) (fun _ => 0)

/-- The value `GatherScatterCommunication::receive` writes at local position
`(i, d)` of rank `r`: `globalItemsToReceive[distribution[r][i]*valueDim + d]`. -/
def scatterValue (D : ℕ) (slice : List ℕ) (g : ℕ → ℚ) (i d : ℕ) : ℚ :=
  g (slice.getD i 0 * D + d)

/-- Send on all ranks followed by receive on all ranks, the peer participant
returning the assembled global vector unchanged (identity coupling). -/
def roundTrip (N D : ℕ) (dist : ℕ → List ℕ) (contrib : ℕ → ℕ → ℚ) (r i d : ℕ) : ℚ :=
  scatterValue D (dist r) (globalItemsToSend N D dist contrib) i d

/-! ### NearestNeighborMapping::map -/

/-- Consistent branch of `NearestNeighborMapping::map`:
`outputValues[i*D + dim] = inputValues[_vertexIndices[i]*D + dim]` for every
output vertex `i` and component `dim`. -/
def nnMapConsistent (D outSize : ℕ) (vertexIndices : List ℕ)
    (inputValues outputValues : ℕ → ℚ) : ℕ → ℚ :=
  (List.range outSize).foldl (fun out i =>
    (List.range D).foldl (fun out dim =>
      setAt out (i * D + dim) (inputValues (vertexIndices.getD i 0 * D + dim))) out) outputValues

/-- Conservative branch of `NearestNeighborMapping::map`:
`outputValues[_vertexIndices[i]*D + dim] += inputValues[i*D + dim]` for every
input vertex `i` and component `dim`. -/
def nnMapConservative (D inSize : ℕ) (vertexIndices : List ℕ)
    (inputValues outputValues : ℕ → ℚ) : ℕ → ℚ :=
  (List.range inSize).foldl (fun out i =>
    (List.range D).foldl (fun out dim =>
      addAt out (vertexIndices.getD i 0 * D + dim) (inputValues (i * D + dim))) out) outputValues

/-! ### Concrete scenario data: distribution rank0 = [0,1], rank1 = [2,3],
valueDim = 1, input [10, 20, 30, 40] split accordingly -/

/-- Vertex distribution of scenario (4) of the spec. -/
def exDist : ℕ → List ℕ :=
  fun r => if r = 0 then [0, 1] else if r = 1 then [2, 3] else []

/-- Per-rank local contributions of scenario (4) of the spec. -/
def exContrib : ℕ → ℕ → ℚ :=
  fun r k => if r = 0 then [(10 : ℚ), 20].getD k 0 else [(30 : ℚ), 40].getD k 0

/-! ### Part 2: the P-Greedy solver (mapping/PGreedySolver.hpp)

The solver is modelled over an arbitrary linearly ordered field `K` together
with an abstract square-root function `sqrt : K → K`; instantiating `K := ℝ`
and `sqrt := Real.sqrt` gives the exact-real idealization of the double
arithmetic of the source.  Vectors and matrices are modelled as functions with
explicit loop bounds, mirroring the Eigen objects of the source. -/

section PGreedy

variable {K : Type} [LinearOrderedField K]

/-- `Polynomial` configuration enum of the mapping configuration. -/
inductive Polynomial where
  | ON
  | OFF
  | SEPARATE
deriving DecidableEq

/-- A `PRECICE_ASSERT(cond)` guarding a computed result: the assertion failure
aborts, modelled as `none`. -/
def preciceAssert {α : Type} (cond : Bool) (v : α) : Option α :=
  if cond then some v else none

/-- Loop state of the `PGreedySolver` constructor: the power function, the
Newton basis matrix (row = input vertex, column = iteration), the triangular
factor `_cut`, the center bit vector and the selected center ids, matching the
member variables of the source. -/
structure PGState (K : Type) where
  powerFunction : ℕ → K
  basisMatrix : ℕ → ℕ → K
  cut : ℕ → ℕ → K
  centerBits : ℕ → Bool
  greedyIDs : List ℕ

/-- `_maxIter` of PGreedySolver. -/
def maxIter : ℕ := 1000

/-- `_tolP` of PGreedySolver (`1e-10`, exact in the idealized model). -/
def tolP (K : Type) [LinearOrderedField K] : K := 1 / 10 ^ 10

/-- `computeSquaredDifference2`: componentwise difference, multiplied by the
indicator of the active-axis mask, then summed as squares. -/
def computeSquaredDifference2 (u v : Fin 3 → K) (activeAxis : Fin 3 → Bool) : K :=
  ∑ d : Fin 3, ((u d - v d) * (if activeAxis d then 1 else 0)) ^ 2

/-- The fixed mask `{true, true, true}` that the source passes at every kernel
evaluation site of the P-Greedy solver (see the `TODO: Aktive Achsen`
comments). -/
def allAxes : Fin 3 → Bool := fun _ => true

/-- Eigen `maxCoeff` with index: first index attaining the maximum of the
first `n` entries, together with that maximum. -/
def maxCoeff (n : ℕ) (p : ℕ → K) : ℕ × K :=
  (List.range n).foldl (fun b j => if p j > b.2 then (j, p j) else b) (0, p 0)

/-- `PGreedySolver::select`: the argmax of the power function with its value. -/
def select (n : ℕ) (p : ℕ → K) : ℕ × K :=
  maxCoeff n p

/-- `buildEvaluationMatrix`: kernel evaluations between the selected greedy
centers of the input mesh and all output vertices, with the hardcoded
`{true, true, true}` axis mask. -/
def buildEvaluationMatrix (φ sqrt : K → K) (outCoords inCoords : ℕ → Fin 3 → K)
    (greedyIDs : List ℕ) : ℕ → ℕ → K :=
  fun i j => φ (sqrt (computeSquaredDifference2 (inCoords (greedyIDs.getD i 0)) (outCoords j) allAxes))

/-- `updateKernelVector`: the kernel vector of the selected vertex `i` against
all input vertices, with the hardcoded `{true, true, true}` axis mask. -/
def kernelVec (φ sqrt : K → K) (coords : ℕ → Fin 3 → K) (i : ℕ) : ℕ → K :=
  fun j => φ (sqrt (computeSquaredDifference2 (coords i) (coords j) allAxes))

/-- The Newton basis column built inside one loop iteration: for every
non-center `j` the kernel value minus the projection onto the previously built
columns, normalized by `sqrt pMax`; center entries keep the raw kernel value
(the loop skips them). -/
def newtonVec (φ sqrt : K → K) (coords : ℕ → Fin 3 → K) (i : ℕ) (pMax : K)
    (s : PGState K) : ℕ → K :=
  fun j =>
    if s.centerBits j then kernelVec φ sqrt coords i j
    else (kernelVec φ sqrt coords i j
        - ∑ k ∈ Finset.range s.greedyIDs.length, s.basisMatrix j k * s.basisMatrix i k)
      / sqrt pMax

/-- The body of one non-breaking iteration of the selection loop of the
`PGreedySolver` constructor, at selected index `i` with power value `pMax`:
fill the kernel vector (`updateKernelVector`), then for every non-center `j`
subtract the Newton projection, normalize by `sqrt pMax` and lower the power
function by the square; record the center, write the new basis column and
append the new row of `_cut`.  The column index `n` of the source loop equals
`greedyIDs.length` because each non-breaking iteration appends one center. -/
def iterStep (φ sqrt : K → K) (coords : ℕ → Fin 3 → K) (i : ℕ) (pMax : K)
    (s : PGState K) : PGState K :=
  { powerFunction := fun j =>
      if s.centerBits j then s.powerFunction j
      else s.powerFunction j
        - newtonVec φ sqrt coords i pMax s j * newtonVec φ sqrt coords i pMax s j
    basisMatrix := fun j k =>
      if k = s.greedyIDs.length then newtonVec φ sqrt coords i pMax s j else s.basisMatrix j k
    cut := fun r c =>
      if r = s.greedyIDs.length ∧ c ≤ s.greedyIDs.length then
        (if c = s.greedyIDs.length then 1
         else -(∑ l ∈ Finset.range s.greedyIDs.length,
                  s.basisMatrix i l * (if c ≤ l then s.cut l c else 0)))
          / newtonVec φ sqrt coords i pMax s i
      else s.cut r c
    centerBits := fun j => if j = i then true else s.centerBits j
    greedyIDs := s.greedyIDs ++ [i] }

/-- The selection loop of the constructor: at most `fuel` further iterations;
each iteration selects the argmax of the power function, breaks as soon as its
value falls below `_tolP`, and otherwise performs `iterStep`. -/
def runLoop (φ sqrt : K → K) (coords : ℕ → Fin 3 → K) (nIn : ℕ) :
    ℕ → PGState K → PGState K
  | 0, s => s
  | fuel + 1, s =>
    if (select nIn s.powerFunction).2 < tolP K then s
    else runLoop φ sqrt coords nIn fuel
      (iterStep φ sqrt coords (select nIn s.powerFunction).1 (select nIn s.powerFunction).2 s)

/-- State at entry of the selection loop: power function filled with
`basisFunction.evaluate(0)`, zero basis matrix and `_cut`, no centers. -/
def initState (φ : K → K) : PGState K :=
  { powerFunction := fun _ => φ 0
    basisMatrix := fun _ _ => 0
    cut := fun _ _ => 0
    centerBits := fun _ => false
    greedyIDs := [] }

/-- The `PGreedySolver` constructor computation: run the selection loop for at
most `_maxIter` iterations from the initial state, then build the evaluation
matrix `_kernel_eval` over the selected centers.  The `deadAxis` argument is
converted to an active-axis array exactly as in the source, which then never
uses it (both kernel evaluation sites pass `{true, true, true}`). -/
def pgreedyFit (φ sqrt : K → K) (inCoords : ℕ → Fin 3 → K) (nIn : ℕ)
    (outCoords : ℕ → Fin 3 → K) (deadAxis : List Bool) : PGState K × (ℕ → ℕ → K) :=
  let activeAxis : Fin 3 → Bool := fun d => ! deadAxis.getD d true
  let final := runLoop φ sqrt inCoords nIn maxIter (initState φ)
  (final, buildEvaluationMatrix φ sqrt outCoords inCoords final.greedyIDs)

/-- `PGreedySolver::solveConservative`: `PRECICE_ASSERT(false)` and an empty
result, modelled as an assertion-guarded value whose guard is `false`. -/
def solveConservative (inputData : ℕ → K) (polynomial : Polynomial) : Option (ℕ → K) :=
  preciceAssert false (fun _ => 0)

/-- `PGreedySolver::solveConsistent`: restrict the input data to the greedy
center ids, apply the lower-triangular view of the leading block of `_cut`,
then its transpose, then the transpose of `_kernel_eval`. -/
def solveConsistent (greedyIDs : List ℕ) (cut : ℕ → ℕ → K) (kernelEval : ℕ → ℕ → K)
    (inputData : ℕ → K) : ℕ → K :=
  let n := greedyIDs.length
  let y : ℕ → K := fun m => inputData (greedyIDs.getD m 0)
  let lower : ℕ → ℕ → K := fun r c => if c ≤ r then cut r c else 0
  let ly : ℕ → K := fun l => ∑ m ∈ Finset.range n, lower l m * y m
  let coeff : ℕ → K := fun k => ∑ l ∈ Finset.range n, lower l k * ly l
  fun j => ∑ k ∈ Finset.range n, kernelEval k j * coeff k

/-- Invariant of the selection loop (exact arithmetic): the selected centers
are distinct, in range, and agree with the center bits; every center has power
exactly zero; every non-center power value carries the Newton-basis sum; the
basis matrix is zero from column `greedyIDs.length` on. -/
def Inv (φ : K → K) (nIn : ℕ) (s : PGState K) : Prop :=
  s.greedyIDs.Nodup ∧
  (∀ g ∈ s.greedyIDs, g < nIn) ∧
  (∀ j, s.centerBits j = true ↔ j ∈ s.greedyIDs) ∧
  (∀ j, s.centerBits j = true → s.powerFunction j = 0) ∧
  (∀ j, s.centerBits j = false →
    s.powerFunction j
      = φ 0 - ∑ k ∈ Finset.range s.greedyIDs.length, s.basisMatrix j k * s.basisMatrix j k) ∧
  (∀ j k, s.greedyIDs.length ≤ k → s.basisMatrix j k = 0)

end PGreedy

/-! ### Characterization lemmas for the update folds -/

theorem foldl_range_succ {α : Type} (f : α → ℕ → α) (b : α) (n : ℕ) :
    (List.range (n + 1)).foldl f b = f ((List.range n).foldl f b) n := by
  rw [List.range_succ, List.foldl_append, List.foldl_cons, List.foldl_nil]

theorem addRow_char (D : ℕ) (key : ℕ → ℕ) (val : ℕ → ℚ) (g : ℕ → ℚ) (k : ℕ) :
    ((List.range D).foldl (fun g d => addAt g (key d) (val d)) g) k
      = g k + ∑ d ∈ Finset.range D, if key d = k then val d else 0 := by
  induction D with
  | zero => simp
  | succ D ih =>
    rw [foldl_range_succ, Finset.sum_range_succ, addAt]
    by_cases h : key D = k
    · simp [h, ih, add_assoc]
    · simp [h, Ne.symm h, ih]

theorem addBlock_char (n D : ℕ) (key : ℕ → ℕ → ℕ) (val : ℕ → ℕ → ℚ) (g : ℕ → ℚ) (k : ℕ) :
    ((List.range n).foldl (fun g i =>
        (List.range D).foldl (fun g d => addAt g (key i d) (val i d)) g) g) k
      = g k + ∑ i ∈ Finset.range n, ∑ d ∈ Finset.range D, if key i d = k then val i d else 0 := by
  induction n with
  | zero => simp
  | succ n ih =>
    rw [foldl_range_succ, addRow_char, ih, Finset.sum_range_succ, add_assoc]

theorem globalItemsToSend_char (N D : ℕ) (dist : ℕ → List ℕ) (contrib : ℕ → ℕ → ℚ) (k : ℕ) :
    globalItemsToSend N D dist contrib k
      = ∑ r ∈ Finset.range N, ∑ i ∈ Finset.range (dist r).length, ∑ d ∈ Finset.range D,
          if (dist r).getD i 0 * D + d = k then contrib r (i * D + d) else 0 := by
  induction N with
  | zero => simp [globalItemsToSend]
  | succ N ih =>
    have h : globalItemsToSend (N + 1) D dist contrib k
        = accumulateRank D (dist N) (contrib N) (globalItemsToSend N D dist contrib) k := by
      rw [globalItemsToSend, foldl_range_succ]; rfl
    rw [h, accumulateRank, addBlock_char, ih, Finset.sum_range_succ]

/-- Distinct flat indices decompose uniquely into vertex index and component. -/
theorem key_inj {D a b d d' : ℕ} (hd : d < D) (hd' : d' < D)
    (h : a * D + d = b * D + d') : a = b ∧ d = d' := by
  have hab : a = b := by
    rcases Nat.lt_trichotomy a b with hlt | heq | hgt
    · exfalso
      have h1 : a * D + d < (a + 1) * D := by rw [Nat.succ_mul]; omega
      have h2 : (a + 1) * D ≤ b * D := Nat.mul_le_mul_right D (Nat.succ_le_of_lt hlt)
      omega
    · exact heq
    · exfalso
      have h1 : b * D + d' < (b + 1) * D := by rw [Nat.succ_mul]; omega
      have h2 : (b + 1) * D ≤ a * D := Nat.mul_le_mul_right D (Nat.succ_le_of_lt hgt)
      omega
  subst hab
  exact ⟨rfl, by omega⟩

/-- C2: Gather semantics of send: on the coordinator, `send` assembles a
zero-initialized global vector, processing rank 0 first and then worker ranks
in ascending order, adding each rank contribution at position
`distribution[r][i] * valueDimension + d`, so duplicated global indices are
combined by summation. -/
theorem send_gather_summation (N D : ℕ) (dist : ℕ → List ℕ) (contrib : ℕ → ℕ → ℚ) (k : ℕ) :
    globalItemsToSend N D dist contrib k
      = ∑ r ∈ Finset.range N, ∑ i ∈ Finset.range (dist r).length, ∑ d ∈ Finset.range D,
          if (dist r).getD i 0 * D + d = k then contrib r (i * D + d) else 0 :=
  globalItemsToSend_char N D dist contrib k

/-- C1: Gather/scatter round-trip with identity coupling: rank `r` receives at
local position `(i, d)` the sum of the contributions of every rank slice
position holding the same global index; in particular, if the global index
appears at exactly one position of one rank, the original value comes back
unchanged. -/
theorem gatherScatter_roundTrip (N D : ℕ) (dist : ℕ → List ℕ) (contrib : ℕ → ℕ → ℚ)
    (r i d : ℕ) (hr : r < N) (hi : i < (dist r).length) (hd : d < D) :
    roundTrip N D dist contrib r i d
        = (∑ r' ∈ Finset.range N, ∑ i' ∈ Finset.range (dist r').length,
            if (dist r').getD i' 0 = (dist r).getD i 0 then contrib r' (i' * D + d) else 0)
      ∧ ((∀ r' < N, ∀ i' < (dist r').length,
            (dist r').getD i' 0 = (dist r).getD i 0 → r' = r ∧ i' = i) →
          roundTrip N D dist contrib r i d = contrib r (i * D + d)) := by
  have hsum : roundTrip N D dist contrib r i d
      = ∑ r' ∈ Finset.range N, ∑ i' ∈ Finset.range (dist r').length,
          if (dist r').getD i' 0 = (dist r).getD i 0 then contrib r' (i' * D + d) else 0 := by
    rw [roundTrip, scatterValue, globalItemsToSend_char]
    refine Finset.sum_congr rfl fun r' _ => Finset.sum_congr rfl fun i' _ => ?_
    by_cases hg : (dist r').getD i' 0 = (dist r).getD i 0
    · rw [if_pos hg, hg]
      have : ∀ d' ∈ Finset.range D,
          (if (dist r).getD i 0 * D + d' = (dist r).getD i 0 * D + d
             then contrib r' (i' * D + d') else 0)
            = if d' = d then contrib r' (i' * D + d') else 0 := by
        intro d' _
        congr 1
        simp [Nat.add_right_cancel_iff, Nat.add_left_cancel_iff]
      rw [Finset.sum_congr rfl this, Finset.sum_ite_eq' (Finset.range D) d]
      simp [Finset.mem_range.mpr hd]
    · rw [if_neg hg]
      refine Finset.sum_eq_zero fun d' hd' => ?_
      rw [if_neg]
      intro hk
      exact hg (key_inj (Finset.mem_range.mp hd') hd hk).1
  refine ⟨hsum, fun huniq => ?_⟩
  rw [hsum]
  rw [Finset.sum_eq_single_of_mem r (Finset.mem_range.mpr hr)]
  · rw [Finset.sum_eq_single_of_mem i (Finset.mem_range.mpr hi)]
    · simp
    · intro i' hi' hne
      rw [if_neg]
      intro hg
      exact hne (huniq r hr i' (Finset.mem_range.mp hi') hg).2
  · intro r' hr' hne
    refine Finset.sum_eq_zero fun i' hi' => ?_
    rw [if_neg]
    intro hg
    exact hne (huniq r' (Finset.mem_range.mp hr') i' (Finset.mem_range.mp hi') hg).1

/-- C1 witness: the concrete scenario with distribution rank0 = [0, 1],
rank1 = [2, 3], valueDim = 1 and input [10, 20, 30, 40] split accordingly:
after send then receive, each rank observes its original slice. -/
theorem gatherScatter_roundTrip_witness :
    roundTrip 2 1 exDist exContrib 0 0 0 = 10 ∧
    roundTrip 2 1 exDist exContrib 0 1 0 = 20 ∧
    roundTrip 2 1 exDist exContrib 1 0 0 = 30 ∧
    roundTrip 2 1 exDist exContrib 1 1 0 = 40 := by
  refine ⟨?_, ?_, ?_, ?_⟩
  · exact ((gatherScatter_roundTrip 2 1 exDist exContrib 0 0 0 (by decide) (by decide)
      (by decide)).2 (by decide)).trans (by decide)
  · exact ((gatherScatter_roundTrip 2 1 exDist exContrib 0 1 0 (by decide) (by decide)
      (by decide)).2 (by decide)).trans (by decide)
  · exact ((gatherScatter_roundTrip 2 1 exDist exContrib 1 0 0 (by decide) (by decide)
      (by decide)).2 (by decide)).trans (by decide)
  · exact ((gatherScatter_roundTrip 2 1 exDist exContrib 1 1 0 (by decide) (by decide)
      (by decide)).2 (by decide)).trans (by decide)

/-! ### Overwriting folds: characterization of the consistent NN loop -/

theorem setRow_other (D base k : ℕ) (val : ℕ → ℚ) (g : ℕ → ℚ)
    (h : ∀ dim < D, base + dim ≠ k) :
    ((List.range D).foldl (fun g dim => setAt g (base + dim) (val dim)) g) k = g k := by
  induction D with
  | zero => simp
  | succ D ih =>
    rw [foldl_range_succ]
    simp only [setAt]
    rw [if_neg (fun hk => h D (Nat.lt_succ_self D) hk.symm)]
    exact ih fun dim hdim => h dim (Nat.lt_succ_of_lt hdim)

theorem setRow_get (D base d : ℕ) (val : ℕ → ℚ) (g : ℕ → ℚ) (hd : d < D) :
    ((List.range D).foldl (fun g dim => setAt g (base + dim) (val dim)) g) (base + d) = val d := by
  induction D with
  | zero => omega
  | succ D ih =>
    rw [foldl_range_succ, setAt]
    by_cases h : d = D
    · subst h; simp
    · have hd' : d < D := by omega
      rw [if_neg (by omega)]
      exact ih hd'

theorem setBlock_get (n D i d : ℕ) (val : ℕ → ℕ → ℚ) (g : ℕ → ℚ)
    (hi : i < n) (hd : d < D) :
    ((List.range n).foldl (fun g i =>
        (List.range D).foldl (fun g dim => setAt g (i * D + dim) (val i dim)) g) g) (i * D + d)
      = val i d := by
  induction n with
  | zero => omega
  | succ n ih =>
    rw [foldl_range_succ]
    by_cases h : i = n
    · subst h
      exact setRow_get D (i * D) d (val i) _ hd
    · have hi' : i < n := by omega
      have hlt : i * D + d < n * D := by
        have h1 : i * D + d < (i + 1) * D := by rw [Nat.succ_mul]; omega
        have h2 : (i + 1) * D ≤ n * D := Nat.mul_le_mul_right D (by omega)
        omega
      rw [setRow_other D (n * D) (i * D + d) (val n) _ (fun dim _ => by omega)]
      exact ih hi'

/-- C3: Nearest-neighbor map semantics: the consistent branch overwrites every
output position with the input value at the recorded nearest-neighbor index:
`outputValues[i*D+d] = inputValues[_vertexIndices[i]*D+d]`; the conservative
branch accumulates `outputValues[_vertexIndices[i]*D+d] += inputValues[i*D+d]`
into the existing output values without zeroing them. -/
theorem nn_map_semantics (D outSize inSize : ℕ) (vertexIndices : List ℕ)
    (inputValues outputValues : ℕ → ℚ) :
    (∀ i < outSize, ∀ d < D,
        nnMapConsistent D outSize vertexIndices inputValues outputValues (i * D + d)
          = inputValues (vertexIndices.getD i 0 * D + d)) ∧
    (∀ k, nnMapConservative D inSize vertexIndices inputValues outputValues k
        = outputValues k + ∑ i ∈ Finset.range inSize, ∑ d ∈ Finset.range D,
            if vertexIndices.getD i 0 * D + d = k then inputValues (i * D + d) else 0) := by
  constructor
  · intro i hi d hd
    exact setBlock_get outSize D i d
      (fun i dim => inputValues (vertexIndices.getD i 0 * D + dim)) outputValues hi hd
  · intro k
    exact addBlock_char inSize D (fun i d => vertexIndices.getD i 0 * D + d)
      (fun i d => inputValues (i * D + d)) outputValues k

/-- C3 witness: concrete instance with D = 1, indices [1, 0], input (5, 7):
the consistent map copies input entry 1 to output position 0, and the
conservative map adds input entry 0 on top of the previous output value at
position 1. -/
theorem nn_map_semantics_witness :
    nnMapConsistent 1 2 [1, 0] (fun k => [(5 : ℚ), 7].getD k 0) (fun _ => 9) (0 * 1 + 0) = 7 ∧
    nnMapConservative 1 2 [1, 0] (fun k => [(5 : ℚ), 7].getD k 0) (fun _ => 9) 1
      = 9 + ∑ i ∈ Finset.range 2, ∑ d ∈ Finset.range 1,
          if [1, 0].getD i 0 * 1 + d = 1 then [(5 : ℚ), 7].getD (i * 1 + d) 0 else 0 := by
  constructor
  · exact ((nn_map_semantics 1 2 2 [1, 0] (fun k => [(5 : ℚ), 7].getD k 0) (fun _ => 9)).1
      0 (by decide) 0 (by decide)).trans (by decide)
  · exact (nn_map_semantics 1 2 2 [1, 0] (fun k => [(5 : ℚ), 7].getD k 0) (fun _ => 9)).2 1

/-- Splitting a sum over a flat index range into vertex and component sums. -/
theorem sum_range_add (f : ℕ → ℚ) (a b : ℕ) :
    ∑ k ∈ Finset.range (a + b), f k
      = (∑ k ∈ Finset.range a, f k) + ∑ d ∈ Finset.range b, f (a + d) := by
  induction b with
  | zero => simp
  | succ b ih => rw [← Nat.add_assoc, Finset.sum_range_succ, ih, Finset.sum_range_succ, add_assoc]

theorem sum_range_mul (f : ℕ → ℚ) (n D : ℕ) :
    ∑ k ∈ Finset.range (n * D), f k
      = ∑ i ∈ Finset.range n, ∑ d ∈ Finset.range D, f (i * D + d) := by
  induction n with
  | zero => simp
  | succ n ih =>
    rw [Nat.succ_mul, sum_range_add, ih, Finset.sum_range_succ]

/-- C4: Conservative NN mass preservation: if every recorded index is a valid
output vertex and the output channel is zero before `map`, the sum of all
output values after `map` equals the sum of all input values exactly. -/
theorem nn_conservative_mass (D outSize inSize : ℕ) (vertexIndices : List ℕ)
    (inputValues outputValues : ℕ → ℚ)
    (hidx : ∀ i < inSize, vertexIndices.getD i 0 < outSize)
    (hout : ∀ k, outputValues k = 0) :
    ∑ k ∈ Finset.range (outSize * D),
        nnMapConservative D inSize vertexIndices inputValues outputValues k
      = ∑ k ∈ Finset.range (inSize * D), inputValues k := by
  have hchar : ∀ k, nnMapConservative D inSize vertexIndices inputValues outputValues k
      = ∑ i ∈ Finset.range inSize, ∑ d ∈ Finset.range D,
          if vertexIndices.getD i 0 * D + d = k then inputValues (i * D + d) else 0 := by
    intro k
    rw [show nnMapConservative D inSize vertexIndices inputValues outputValues k
        = outputValues k + ∑ i ∈ Finset.range inSize, ∑ d ∈ Finset.range D,
            if vertexIndices.getD i 0 * D + d = k then inputValues (i * D + d) else 0 from
      addBlock_char inSize D (fun i d => vertexIndices.getD i 0 * D + d)
        (fun i d => inputValues (i * D + d)) outputValues k, hout k, zero_add]
  calc
    ∑ k ∈ Finset.range (outSize * D),
        nnMapConservative D inSize vertexIndices inputValues outputValues k
      = ∑ k ∈ Finset.range (outSize * D), ∑ i ∈ Finset.range inSize, ∑ d ∈ Finset.range D,
          if vertexIndices.getD i 0 * D + d = k then inputValues (i * D + d) else 0 :=
        Finset.sum_congr rfl fun k _ => hchar k
    _ = ∑ i ∈ Finset.range inSize, ∑ d ∈ Finset.range D, ∑ k ∈ Finset.range (outSize * D),
          if vertexIndices.getD i 0 * D + d = k then inputValues (i * D + d) else 0 := by
        rw [Finset.sum_comm]
        exact Finset.sum_congr rfl fun i _ => Finset.sum_comm
    _ = ∑ i ∈ Finset.range inSize, ∑ d ∈ Finset.range D, inputValues (i * D + d) := by
        refine Finset.sum_congr rfl fun i hi => Finset.sum_congr rfl fun d hd => ?_
        rw [Finset.sum_ite_eq (Finset.range (outSize * D)) (vertexIndices.getD i 0 * D + d)
          (fun _ => inputValues (i * D + d))]
        have hkey : vertexIndices.getD i 0 * D + d < outSize * D := by
          have h1 : vertexIndices.getD i 0 * D + d < (vertexIndices.getD i 0 + 1) * D := by
            rw [Nat.succ_mul]; exact Nat.add_lt_add_left (Finset.mem_range.mp hd) _
          have h2 : (vertexIndices.getD i 0 + 1) * D ≤ outSize * D :=
            Nat.mul_le_mul_right D (hidx i (Finset.mem_range.mp hi))
          omega
        rw [if_pos (Finset.mem_range.mpr hkey)]
    _ = ∑ k ∈ Finset.range (inSize * D), inputValues k := (sum_range_mul inputValues inSize D).symm

/-- C4 witness: concrete conservative map with D = 1, indices [1, 0], input
(3, 5) and zero output: the output sum equals the input sum. -/
theorem nn_conservative_mass_witness :
    ∑ k ∈ Finset.range (2 * 1),
        nnMapConservative 1 2 [1, 0] (fun k => [(3 : ℚ), 5].getD k 0) (fun _ => 0) k
      = ∑ k ∈ Finset.range (2 * 1), (fun k => [(3 : ℚ), 5].getD k 0) k :=
  nn_conservative_mass 1 2 2 [1, 0] (fun k => [(3 : ℚ), 5].getD k 0) (fun _ => 0)
    (by decide) (fun _ => rfl)

/-! ### P-Greedy: the direct claims about the solve routines and dead axes -/

section PGreedyThms

variable {K : Type} [LinearOrderedField K]

/-- C9: `PGreedySolver::solveConservative` is an unconditional precondition
failure: for every input data vector and polynomial argument it hits
`PRECICE_ASSERT(false)` and never returns a computed result. -/
theorem pgreedy_solveConservative_fails (inputData : ℕ → K) (polynomial : Polynomial) :
    solveConservative inputData polynomial = none :=
  rfl

/-- C8: Dead-axis independence of the P-Greedy constructor: the `deadAxis`
argument is converted into an active-axis array that is then never used; every
kernel distance of `updateKernelVector` and `buildEvaluationMatrix` is taken
with the fixed mask `{true, true, true}`, so the selected centers, the
triangular factor and the evaluation matrix agree for any two `deadAxis`
arguments. -/
theorem pgreedy_deadAxis_independent (φ sqrt : K → K) (inCoords outCoords : ℕ → Fin 3 → K)
    (nIn : ℕ) (deadAxis₁ deadAxis₂ : List Bool) :
    pgreedyFit φ sqrt inCoords nIn outCoords deadAxis₁
      = pgreedyFit φ sqrt inCoords nIn outCoords deadAxis₂ :=
  rfl

/-- C7: `PGreedySolver::solveConsistent` computes the prediction
`Eᵀ · (Lᵀ · (L · y))` where `y` is the input data restricted to the greedy
center ids in selection order and `L` is the lower-triangular view of the
leading `|greedyIDs|` block of `_cut`; in particular the result depends on the
input data only at the selected center ids. -/
theorem pgreedy_solveConsistent_formula (greedyIDs : List ℕ) (cut : ℕ → ℕ → K)
    (kernelEval : ℕ → ℕ → K) (inputData : ℕ → K) :
    (∀ j, solveConsistent greedyIDs cut kernelEval inputData j
        = ∑ k ∈ Finset.range greedyIDs.length, kernelEval k j *
            ∑ l ∈ Finset.range greedyIDs.length, (if k ≤ l then cut l k else 0) *
              ∑ m ∈ Finset.range greedyIDs.length, (if m ≤ l then cut l m else 0) *
                inputData (greedyIDs.getD m 0)) ∧
    (∀ f g : ℕ → K, (∀ t ∈ greedyIDs, f t = g t) →
        solveConsistent greedyIDs cut kernelEval f = solveConsistent greedyIDs cut kernelEval g) := by
  constructor
  · intro j
    rfl
  · intro f g hfg
    funext j
    show ∑ k ∈ Finset.range greedyIDs.length, _ = ∑ k ∈ Finset.range greedyIDs.length, _
    refine Finset.sum_congr rfl fun k _ => ?_
    congr 1
    refine Finset.sum_congr rfl fun l _ => ?_
    congr 1
    refine Finset.sum_congr rfl fun m hm => ?_
    congr 1
    have hmem : greedyIDs.getD m 0 ∈ greedyIDs := by
      have hlt : m < greedyIDs.length := Finset.mem_range.mp hm
      rw [List.getD_eq_getElem greedyIDs 0 hlt]
      exact List.getElem_mem hlt
    exact hfg _ hmem

/-- C7 witness: a concrete one-center instance of the consistent solve formula
and of the restriction property. -/
theorem pgreedy_solveConsistent_formula_witness :
    solveConsistent [1] (fun _ _ => (2 : ℚ)) (fun _ _ => 3) (fun t => t) 0
        = ∑ k ∈ Finset.range 1, (fun _ _ => (3 : ℚ)) k 0 *
            ∑ l ∈ Finset.range 1, (if k ≤ l then (2 : ℚ) else 0) *
              ∑ m ∈ Finset.range 1, (if m ≤ l then (2 : ℚ) else 0) *
                (fun t => (t : ℚ)) ([1].getD m 0) ∧
    solveConsistent [1] (fun _ _ => (2 : ℚ)) (fun _ _ => 3) (fun t => t)
      = solveConsistent [1] (fun _ _ => (2 : ℚ)) (fun _ _ => 3) (fun t => if t = 0 then 9 else t) := by
  constructor
  · exact (pgreedy_solveConsistent_formula [1] (fun _ _ => (2 : ℚ)) (fun _ _ => 3)
      (fun t => (t : ℚ))).1 0
  · exact (pgreedy_solveConsistent_formula [1] (fun _ _ => (2 : ℚ)) (fun _ _ => 3)
      (fun t => (t : ℚ))).2 _ _ (by decide)

/-! ### The argmax of the power function -/

theorem select_eq (n : ℕ) (p : ℕ → K) : select n p = maxCoeff n p :=
  rfl

theorem maxCoeff_succ (n : ℕ) (p : ℕ → K) :
    maxCoeff (n + 1) p
      = if p n > (maxCoeff n p).2 then (n, p n) else maxCoeff n p := by
  rw [maxCoeff, foldl_range_succ]
  rfl

theorem maxCoeff_spec (n : ℕ) (p : ℕ → K) :
    (maxCoeff n p).2 = p (maxCoeff n p).1 ∧ ∀ j < n, p j ≤ (maxCoeff n p).2 := by
  induction n with
  | zero => exact ⟨rfl, by omega⟩
  | succ n ih =>
    rw [maxCoeff_succ]
    by_cases h : p n > (maxCoeff n p).2
    · rw [if_pos h]
      refine ⟨rfl, fun j hj => ?_⟩
      rcases Nat.lt_succ_iff_lt_or_eq.mp hj with hj' | hj'
      · exact le_of_lt (lt_of_le_of_lt (ih.2 j hj') h)
      · subst hj'; exact le_refl _
    · rw [if_neg h]
      push_neg at h
      refine ⟨ih.1, fun j hj => ?_⟩
      rcases Nat.lt_succ_iff_lt_or_eq.mp hj with hj' | hj'
      · exact ih.2 j hj'
      · subst hj'; exact h

theorem maxCoeff_fst_lt (n : ℕ) (p : ℕ → K) (h0 : 0 < n) : (maxCoeff n p).1 < n := by
  induction n with
  | zero => omega
  | succ n ih =>
    rw [maxCoeff_succ]
    by_cases h : p n > (maxCoeff n p).2
    · rw [if_pos h]; exact Nat.lt_succ_self n
    · rw [if_neg h]
      rcases Nat.eq_zero_or_pos n with hn | hn
      · subst hn
        show (maxCoeff 0 p).1 < 1
        rw [maxCoeff]
        simp
      · exact Nat.lt_succ_of_lt (ih hn)

theorem maxCoeff_snd_succ (n : ℕ) (p : ℕ → K) :
    (maxCoeff (n + 1) p).2 = max (maxCoeff n p).2 (p n) := by
  rw [maxCoeff_succ]
  by_cases h : p n > (maxCoeff n p).2
  · rw [if_pos h]; exact (max_eq_right (le_of_lt h)).symm
  · rw [if_neg h]; push_neg at h; exact (max_eq_left h).symm

theorem maxCoeff_mono (n : ℕ) {p q : ℕ → K} (h : ∀ j, q j ≤ p j) :
    (maxCoeff n q).2 ≤ (maxCoeff n p).2 := by
  induction n with
  | zero => exact h 0
  | succ n ih => rw [maxCoeff_snd_succ, maxCoeff_snd_succ]; exact max_le_max ih (h n)

/-! ### The selection loop: pointwise decrease of the power function -/

theorem runLoop_succ (φ sqrt : K → K) (coords : ℕ → Fin 3 → K) (nIn fuel : ℕ) (s : PGState K) :
    runLoop φ sqrt coords nIn (fuel + 1) s
      = if (select nIn s.powerFunction).2 < tolP K then s
        else runLoop φ sqrt coords nIn fuel
          (iterStep φ sqrt coords (select nIn s.powerFunction).1 (select nIn s.powerFunction).2 s) :=
  rfl

theorem iterStep_power_le (φ sqrt : K → K) (coords : ℕ → Fin 3 → K) (i : ℕ) (pMax : K)
    (s : PGState K) (j : ℕ) :
    (iterStep φ sqrt coords i pMax s).powerFunction j ≤ s.powerFunction j := by
  show (if s.centerBits j then s.powerFunction j
      else s.powerFunction j
        - newtonVec φ sqrt coords i pMax s j * newtonVec φ sqrt coords i pMax s j)
    ≤ s.powerFunction j
  by_cases h : s.centerBits j
  · rw [if_pos h]
  · rw [if_neg h]
    exact sub_le_self _ (mul_self_nonneg _)

theorem runLoop_zero (φ sqrt : K → K) (coords : ℕ → Fin 3 → K) (nIn : ℕ) (s : PGState K) :
    runLoop φ sqrt coords nIn 0 s = s :=
  rfl

theorem runLoop_power_le (φ sqrt : K → K) (coords : ℕ → Fin 3 → K) (nIn : ℕ) (fuel : ℕ)
    (s : PGState K) (j : ℕ) :
    (runLoop φ sqrt coords nIn (fuel + 1) s).powerFunction j
      ≤ (runLoop φ sqrt coords nIn fuel s).powerFunction j := by
  induction fuel generalizing s with
  | zero =>
    by_cases h : (select nIn s.powerFunction).2 < tolP K
    · show (runLoop φ sqrt coords nIn 1 s).powerFunction j ≤ s.powerFunction j
      rw [runLoop_succ, if_pos h]
    · show (runLoop φ sqrt coords nIn 1 s).powerFunction j ≤ s.powerFunction j
      rw [runLoop_succ, if_neg h, runLoop_zero]
      exact iterStep_power_le φ sqrt coords _ _ s j
  | succ fuel ih =>
    by_cases h : (select nIn s.powerFunction).2 < tolP K
    · rw [runLoop_succ φ sqrt coords nIn (fuel + 1) s, if_pos h,
        runLoop_succ φ sqrt coords nIn fuel s, if_pos h]
    · rw [runLoop_succ φ sqrt coords nIn (fuel + 1) s, if_neg h,
        runLoop_succ φ sqrt coords nIn fuel s, if_neg h]
      exact ih _

/-- C6: P-Greedy power-function monotonicity: across the iterations of the
selection loop of the constructor, the maximum of the power function (the
value returned by `select`) is non-increasing from one iteration to the next:
every update only subtracts squares from the entries. -/
theorem pgreedy_power_monotone (φ sqrt : K → K) (coords : ℕ → Fin 3 → K) (nIn k : ℕ) :
    (select nIn (runLoop φ sqrt coords nIn (k + 1) (initState φ)).powerFunction).2
      ≤ (select nIn (runLoop φ sqrt coords nIn k (initState φ)).powerFunction).2 := by
  rw [select_eq, select_eq]
  exact maxCoeff_mono nIn (runLoop_power_le φ sqrt coords nIn k (initState φ))

/-! ### The selection-loop invariant (exact arithmetic) -/

theorem sqdiff_self (u : Fin 3 → K) (a : Fin 3 → Bool) :
    computeSquaredDifference2 u u a = 0 := by
  simp [computeSquaredDifference2]

theorem iterStep_len (φ sqrt : K → K) (coords : ℕ → Fin 3 → K) (i : ℕ) (pMax : K)
    (s : PGState K) :
    (iterStep φ sqrt coords i pMax s).greedyIDs.length = s.greedyIDs.length + 1 := by
  simp [iterStep]

theorem inv_init (φ : K → K) (nIn : ℕ) : Inv φ nIn (initState φ) := by
  refine ⟨List.nodup_nil, ?_, ?_, ?_, ?_, ?_⟩
  · intro g hg; simp [initState] at hg
  · intro j; simp [initState]
  · intro j hj; simp [initState] at hj
  · intro j _; simp [initState]
  · intro j k _; rfl

theorem inv_step (φ sqrt : K → K) (coords : ℕ → Fin 3 → K) (nIn : ℕ) (s : PGState K)
    (h0 : 0 < nIn)
    (hs : ∀ x : K, tolP K ≤ x → sqrt x * sqrt x = x)
    (hs0 : sqrt 0 = 0)
    (hInv : Inv φ nIn s)
    (hsel : tolP K ≤ (select nIn s.powerFunction).2) :
    Inv φ nIn (iterStep φ sqrt coords (select nIn s.powerFunction).1
      (select nIn s.powerFunction).2 s) := by
  obtain ⟨hnd, hbd, hbits, hcen, hnon, hB⟩ := hInv
  have htol : (0 : K) < tolP K := by rw [tolP]; positivity
  have hpPos : (0 : K) < (select nIn s.powerFunction).2 := lt_of_lt_of_le htol hsel
  have hpi : s.powerFunction (select nIn s.powerFunction).1 = (select nIn s.powerFunction).2 :=
    (maxCoeff_spec nIn s.powerFunction).1.symm
  have hiLt : (select nIn s.powerFunction).1 < nIn := maxCoeff_fst_lt nIn s.powerFunction h0
  set i := (select nIn s.powerFunction).1
  set pMax := (select nIn s.powerFunction).2
  have hciF : s.centerBits i = false := by
    cases hc : s.centerBits i with
    | false => rfl
    | true =>
      exfalso
      have h0' := hcen i hc
      rw [hpi] at h0'
      exact (ne_of_gt hpPos) h0'
  have hiMem : i ∉ s.greedyIDs := by
    intro hmem
    have hmem' := (hbits i).mpr hmem
    rw [hciF] at hmem'
    exact Bool.noConfusion hmem'
  have hsq : sqrt pMax * sqrt pMax = pMax := hs pMax hsel
  have hsnz : sqrt pMax ≠ 0 := by
    intro hz
    rw [hz, mul_zero] at hsq
    exact (ne_of_gt hpPos) hsq.symm
  have hker : kernelVec φ sqrt coords i i = φ 0 := by
    show φ (sqrt (computeSquaredDifference2 (coords i) (coords i) allAxes)) = φ 0
    rw [sqdiff_self, hs0]
  have hnum : kernelVec φ sqrt coords i i
      - ∑ k ∈ Finset.range s.greedyIDs.length, s.basisMatrix i k * s.basisMatrix i k = pMax := by
    have hni := hnon i hciF
    rw [hpi] at hni
    rw [hker]
    exact hni.symm
  have hw : newtonVec φ sqrt coords i pMax s i = pMax / sqrt pMax := by
    show (if s.centerBits i then kernelVec φ sqrt coords i i
        else (kernelVec φ sqrt coords i i
            - ∑ k ∈ Finset.range s.greedyIDs.length, s.basisMatrix i k * s.basisMatrix i k)
          / sqrt pMax) = pMax / sqrt pMax
    rw [if_neg (by simp [hciF]), hnum]
  have hwi : newtonVec φ sqrt coords i pMax s i * newtonVec φ sqrt coords i pMax s i = pMax := by
    rw [hw, div_mul_div_comm, hsq, mul_div_cancel_left₀ _ (ne_of_gt hpPos)]
  refine ⟨?_, ?_, ?_, ?_, ?_, ?_⟩
  · show (s.greedyIDs ++ [i]).Nodup
    rw [List.nodup_append]
    refine ⟨hnd, List.nodup_singleton i, ?_⟩
    intro a ha hb
    rw [List.mem_singleton] at hb
    subst hb
    exact hiMem ha
  · intro g hg
    rcases List.mem_append.mp hg with hg' | hg'
    · exact hbd g hg'
    · rw [List.mem_singleton] at hg'
      subst hg'
      exact hiLt
  · intro j
    show (if j = i then true else s.centerBits j) = true ↔ j ∈ s.greedyIDs ++ [i]
    by_cases hj : j = i
    · subst hj
      simp
    · rw [if_neg hj]
      rw [List.mem_append, List.mem_singleton]
      simp only [hj, or_false]
      exact hbits j
  · intro j hj
    show (if s.centerBits j then s.powerFunction j
        else s.powerFunction j
          - newtonVec φ sqrt coords i pMax s j * newtonVec φ sqrt coords i pMax s j) = 0
    by_cases hji : j = i
    · subst hji
      rw [if_neg (by simp [hciF]), hpi, hwi, sub_self]
    · have hj' : s.centerBits j = true := by
        have : (if j = i then true else s.centerBits j) = true := hj
        rwa [if_neg hji] at this
      rw [if_pos (by simp [hj']), hcen j hj']
  · intro j hj
    have hji : j ≠ i := by
      intro h
      have hx : (if j = i then true else s.centerBits j) = false := hj
      rw [if_pos h] at hx
      exact Bool.noConfusion hx
    have hj' : s.centerBits j = false := by
      have : (if j = i then true else s.centerBits j) = false := hj
      rwa [if_neg hji] at this
    show (if s.centerBits j then s.powerFunction j
        else s.powerFunction j
          - newtonVec φ sqrt coords i pMax s j * newtonVec φ sqrt coords i pMax s j)
      = φ 0 - ∑ k ∈ Finset.range (s.greedyIDs ++ [i]).length,
          (if k = s.greedyIDs.length then newtonVec φ sqrt coords i pMax s j
           else s.basisMatrix j k)
          * (if k = s.greedyIDs.length then newtonVec φ sqrt coords i pMax s j
             else s.basisMatrix j k)
    have hlen : (s.greedyIDs ++ [i]).length = s.greedyIDs.length + 1 := by simp
    rw [hlen, Finset.sum_range_succ, if_pos rfl]
    have hsum : ∑ k ∈ Finset.range s.greedyIDs.length,
        (if k = s.greedyIDs.length then newtonVec φ sqrt coords i pMax s j
         else s.basisMatrix j k)
        * (if k = s.greedyIDs.length then newtonVec φ sqrt coords i pMax s j
           else s.basisMatrix j k)
        = ∑ k ∈ Finset.range s.greedyIDs.length, s.basisMatrix j k * s.basisMatrix j k := by
      refine Finset.sum_congr rfl fun k hk => ?_
      rw [if_neg (Nat.ne_of_lt (Finset.mem_range.mp hk))]
    rw [hsum, if_neg (by simp [hj']), hnon j hj']
    ring
  · intro j k hk
    have hk' : s.greedyIDs.length + 1 ≤ k := by
      have hlen : (s.greedyIDs ++ [i]).length = s.greedyIDs.length + 1 := by simp
      rw [← hlen]
      exact hk
    show (if k = s.greedyIDs.length then newtonVec φ sqrt coords i pMax s j
        else s.basisMatrix j k) = 0
    rw [if_neg (by omega)]
    exact hB j k (by omega)

theorem inv_runLoop (φ sqrt : K → K) (coords : ℕ → Fin 3 → K) (nIn fuel : ℕ) (s : PGState K)
    (h0 : 0 < nIn)
    (hs : ∀ x : K, tolP K ≤ x → sqrt x * sqrt x = x)
    (hs0 : sqrt 0 = 0)
    (hInv : Inv φ nIn s) :
    Inv φ nIn (runLoop φ sqrt coords nIn fuel s) := by
  induction fuel generalizing s with
  | zero => exact hInv
  | succ fuel ih =>
    rw [runLoop_succ]
    by_cases h : (select nIn s.powerFunction).2 < tolP K
    · rw [if_pos h]; exact hInv
    · rw [if_neg h]
      exact ih _ (inv_step φ sqrt coords nIn s h0 hs hs0 hInv (not_lt.mp h))

theorem runLoop_len_le (φ sqrt : K → K) (coords : ℕ → Fin 3 → K) (nIn fuel : ℕ)
    (s : PGState K) :
    (runLoop φ sqrt coords nIn fuel s).greedyIDs.length ≤ s.greedyIDs.length + fuel := by
  induction fuel generalizing s with
  | zero => exact Nat.le_refl _
  | succ fuel ih =>
    rw [runLoop_succ]
    by_cases h : (select nIn s.powerFunction).2 < tolP K
    · rw [if_pos h]; omega
    · rw [if_neg h]
      have h1 := ih (iterStep φ sqrt coords (select nIn s.powerFunction).1
        (select nIn s.powerFunction).2 s)
      rw [iterStep_len] at h1
      omega

theorem runLoop_end (φ sqrt : K → K) (coords : ℕ → Fin 3 → K) (nIn fuel : ℕ) (s : PGState K) :
    (select nIn (runLoop φ sqrt coords nIn fuel s).powerFunction).2 < tolP K
      ∨ (runLoop φ sqrt coords nIn fuel s).greedyIDs.length = s.greedyIDs.length + fuel := by
  induction fuel generalizing s with
  | zero => right; rfl
  | succ fuel ih =>
    rw [runLoop_succ]
    by_cases h : (select nIn s.powerFunction).2 < tolP K
    · rw [if_pos h]; left; exact h
    · rw [if_neg h]
      rcases ih (iterStep φ sqrt coords (select nIn s.powerFunction).1
        (select nIn s.powerFunction).2 s) with hl | hr
      · left; exact hl
      · right
        rw [hr, iterStep_len]
        omega

/-- C5: P-Greedy center-count bound and termination: the constructor selects
at most `min n maxIter` centers (`maxIter = 1000`, `tolP = 1e-10`), the loop
stops as soon as the maximum of the power function falls below `tolP`, and
after the constructor either the maximum of the power function is below
`tolP` or exactly `min n maxIter` centers were selected. -/
theorem pgreedy_center_bound (φ sqrt : K → K) (inCoords outCoords : ℕ → Fin 3 → K)
    (nIn : ℕ) (deadAxis : List Bool)
    (h0 : 0 < nIn)
    (hs : ∀ x : K, tolP K ≤ x → sqrt x * sqrt x = x)
    (hs0 : sqrt 0 = 0) :
    (pgreedyFit φ sqrt inCoords nIn outCoords deadAxis).1.greedyIDs.length ≤ min nIn maxIter ∧
    ((select nIn (pgreedyFit φ sqrt inCoords nIn outCoords deadAxis).1.powerFunction).2 < tolP K
      ∨ (pgreedyFit φ sqrt inCoords nIn outCoords deadAxis).1.greedyIDs.length
          = min nIn maxIter) := by
  have hfit : (pgreedyFit φ sqrt inCoords nIn outCoords deadAxis).1
      = runLoop φ sqrt inCoords nIn maxIter (initState φ) := rfl
  have hInv := inv_runLoop φ sqrt inCoords nIn maxIter (initState φ) h0 hs hs0 (inv_init φ nIn)
  have hlen_n : (runLoop φ sqrt inCoords nIn maxIter (initState φ)).greedyIDs.length ≤ nIn := by
    have hnd := hInv.1
    have hbd := hInv.2.1
    have hcard := List.toFinset_card_of_nodup hnd
    have hsub : (runLoop φ sqrt inCoords nIn maxIter (initState φ)).greedyIDs.toFinset
        ⊆ Finset.range nIn := by
      intro g hg
      rw [List.mem_toFinset] at hg
      exact Finset.mem_range.mpr (hbd g hg)
    have hle := Finset.card_le_card hsub
    rw [hcard, Finset.card_range] at hle
    exact hle
  have hlen_iter : (runLoop φ sqrt inCoords nIn maxIter (initState φ)).greedyIDs.length
      ≤ maxIter := by
    have := runLoop_len_le φ sqrt inCoords nIn maxIter (initState φ)
    simpa [initState] using this
  constructor
  · rw [hfit]
    exact le_min hlen_n hlen_iter
  · rw [hfit]
    rcases runLoop_end φ sqrt inCoords nIn maxIter (initState φ) with hl | hr
    · left; exact hl
    · right
      have hr' : (runLoop φ sqrt inCoords nIn maxIter (initState φ)).greedyIDs.length
          = maxIter := by simpa [initState] using hr
      omega

/-- C5 witness: a concrete instantiation over the reals with the genuine
square root, one input vertex, the zero kernel. -/
theorem pgreedy_center_bound_witness :
    (pgreedyFit (fun _ => (0 : ℝ)) Real.sqrt (fun _ _ => 0) 1 (fun _ _ => 0) []).1.greedyIDs.length
        ≤ min 1 maxIter ∧
    ((select 1 ((pgreedyFit (fun _ => (0 : ℝ)) Real.sqrt (fun _ _ => 0) 1 (fun _ _ => 0)
          []).1.powerFunction)).2 < tolP ℝ
      ∨ (pgreedyFit (fun _ => (0 : ℝ)) Real.sqrt (fun _ _ => 0) 1 (fun _ _ => 0)
          []).1.greedyIDs.length = min 1 maxIter) :=
  pgreedy_center_bound (fun _ => (0 : ℝ)) Real.sqrt (fun _ _ => 0) (fun _ _ => 0) 1 []
    (by decide)
    (fun x hx => Real.mul_self_sqrt (le_trans (by rw [tolP]; positivity) hx))
    Real.sqrt_zero

/-- C10: Selected centers are never re-selected and are pairwise distinct: at
every stage of the selection loop the list of greedy ids has no duplicates,
and every selected center has power-function value exactly zero (its entry is
reduced to zero in the iteration that selects it, so as long as the argmax
value is at least `tolP` the argmax is never an already-selected index). -/
theorem pgreedy_centers_distinct (φ sqrt : K → K) (coords : ℕ → Fin 3 → K) (nIn k : ℕ)
    (h0 : 0 < nIn)
    (hs : ∀ x : K, tolP K ≤ x → sqrt x * sqrt x = x)
    (hs0 : sqrt 0 = 0) :
    (runLoop φ sqrt coords nIn k (initState φ)).greedyIDs.Nodup ∧
    ∀ j ∈ (runLoop φ sqrt coords nIn k (initState φ)).greedyIDs,
      (runLoop φ sqrt coords nIn k (initState φ)).powerFunction j = 0 := by
  have hInv := inv_runLoop φ sqrt coords nIn k (initState φ) h0 hs hs0 (inv_init φ nIn)
  exact ⟨hInv.1, fun j hj => hInv.2.2.2.1 j ((hInv.2.2.1 j).mpr hj)⟩

/-- C10 witness: the same concrete real instantiation, after five loop
stages. -/
theorem pgreedy_centers_distinct_witness :
    (runLoop (fun _ => (0 : ℝ)) Real.sqrt (fun _ _ => 0) 1 5
        (initState (fun _ => (0 : ℝ)))).greedyIDs.Nodup ∧
    ∀ j ∈ (runLoop (fun _ => (0 : ℝ)) Real.sqrt (fun _ _ => 0) 1 5
        (initState (fun _ => (0 : ℝ)))).greedyIDs,
      (runLoop (fun _ => (0 : ℝ)) Real.sqrt (fun _ _ => 0) 1 5
        (initState (fun _ => (0 : ℝ)))).powerFunction j = 0 :=
  pgreedy_centers_distinct (fun _ => (0 : ℝ)) Real.sqrt (fun _ _ => 0) 1 5
    (by decide)
    (fun x hx => Real.mul_self_sqrt (le_trans (by rw [tolP]; positivity) hx))
    Real.sqrt_zero

end PGreedyThms

end Precice
